import Mathlib

/-!
Verification of the extraction-and-scoring core of an AI resume screening
system.  The Python sources `nlp_extractor.py` and `scoring_engine.py` are
shallowly embedded below: strings are `String`/`List Char`, Python floats are
modelled as `ℚ`, the relevant `re` patterns are modelled by a small
backtracking matcher with Python's greedy priority order, and the `try/except`
isolation in batch scoring is modelled by an `Except`-valued scoring step.
-/

set_option maxRecDepth 40000

namespace ResumeScreen

/-! ### Character and string utilities (Python `str` methods, ASCII) -/

/-- The ASCII whitespace class of Python's `\s` and `str.strip`. -/
def isWs (c : Char) : Bool :=
  c = ' ' || c = '\t' || c = '\n' || c = '\r' || c = Char.ofNat 11 || c = Char.ofNat 12

/-- Python `str.lower` (ASCII). -/
def pyLower (s : String) : String := ⟨s.data.map Char.toLower⟩

/-- Helper for `str.title`: the flag records whether the previous character was
a letter (cased); a letter following a non-letter is uppercased, every other
letter is lowercased, other characters pass through. -/
def titleAux : Bool → List Char → List Char
  | _, [] => []
  | prevAlpha, c :: rest =>
    (if c.isAlpha then (if prevAlpha then c.toLower else c.toUpper) else c) :: titleAux c.isAlpha rest

/-- Python `str.title` (ASCII). -/
def pyTitle (s : String) : String := ⟨titleAux false s.data⟩

/-- Python's substring test `needle in hay`. -/
def containsSub (needle : List Char) : List Char → Bool
  | [] => needle.isPrefixOf []
  | c :: t => needle.isPrefixOf (c :: t) || containsSub needle t

/-- Python string comparison `a <= b`: code-point lexicographic order. -/
def strLe : List Char → List Char → Bool
  | [], _ => true
  | _ :: _, [] => false
  | x :: xs, y :: ys => if x < y then true else if y < x then false else strLe xs ys

/-! ### `NLPExtractor._clean_text` -/

/-- `re.sub(r'\s+', ' ', text)`: replace every maximal whitespace run by one
space.  The flag records whether the previous character was whitespace, i.e.
whether the single replacement space of the current run was already emitted. -/
def squeezeAux : Bool → List Char → List Char
  | _, [] => []
  | prevWs, c :: rest =>
    if isWs c then
      if prevWs then squeezeAux true rest else ' ' :: squeezeAux true rest
    else c :: squeezeAux false rest

/-- Python `str.strip()`. -/
def pyStrip (l : List Char) : List Char :=
  ((l.dropWhile isWs).reverse.dropWhile isWs).reverse

/-- `NLPExtractor._clean_text`: collapse whitespace runs, then strip. -/
def _clean_text (text : String) : String :=
  ⟨pyStrip (squeezeAux false text.data)⟩

/-- The words of a character list: its maximal nonempty whitespace-free runs,
in order (`acc` holds the reversed current run). -/
def wordsAux (acc : List Char) : List Char → List (List Char)
  | [] => if acc.isEmpty then [] else [acc.reverse]
  | c :: rest =>
    if isWs c then
      if acc.isEmpty then wordsAux [] rest else acc.reverse :: wordsAux [] rest
    else wordsAux (c :: acc) rest

def wordsOf (l : List Char) : List (List Char) := wordsAux [] l

/-- Join words with single spaces. -/
def joinWords : List (List Char) → List Char
  | [] => []
  | [w] => w
  | w :: ws => w ++ ' ' :: joinWords ws

/-- The text normalizer as the specification words it: every whitespace run
collapsed to one space and the ends stripped — i.e. the words of the text
joined by single spaces. -/
def normSpec (t : String) : String := ⟨joinWords (wordsOf t.data)⟩

/-! ### `NLPExtractor._extract_phone`

The three phone patterns are simple regexes built from literal characters,
character classes, counted repetition (unrolled), a greedy `?`, and one capture
group.  `Pat.run` enumerates the ways a pattern matches a prefix of the input
in exactly the backtracking priority order of Python's `re` engine, together
with the group-1 capture. -/

inductive Pat where
  | cls (p : Char → Bool)
  | seq (a b : Pat)
  | opt (a : Pat)
  | grp (a : Pat)

/-- All ways the pattern can match a prefix of `s`, as (remaining suffix,
group-1 capture), in backtracking priority order (greedy `?` tries the present
branch first; the patterns below contain a single, unnested group). -/
def Pat.run : Pat → List Char → List (List Char × Option (List Char))
  | .cls _, [] => []
  | .cls p, c :: rest => if p c then [(rest, none)] else []
  | .seq a b, s =>
    (a.run s).flatMap (fun fst =>
      (b.run fst.1).map (fun snd =>
        (snd.1, match fst.2 with | some g => some g | none => snd.2)))
  | .opt a, s => a.run s ++ [(s, none)]
  | .grp a, s => (a.run s).map (fun r => (r.1, some (s.take (s.length - r.1.length))))

/-- `re.findall(pattern, text)[0]` for a pattern with exactly one capture
group: `re.findall` returns the list of group-1 captures (the empty string when
the group did not participate), so this is the group-1 text of the leftmost
match, or `none` when the pattern matches nowhere in the text. -/
def findFirstGroup (p : Pat) : List Char → Option String
  | [] =>
    match (p.run []).head? with
    | some r => some ⟨r.2.getD []⟩
    | none => none
  | c :: rest =>
    match (p.run (c :: rest)).head? with
    | some r => some ⟨r.2.getD []⟩
    | none => findFirstGroup p rest

def digitPat : Pat := .cls Char.isDigit

/-- The separator class `[-.\s]`. -/
def sepPat : Pat := .cls (fun c => c = '-' || c = '.' || isWs c)

/-- `\d{1,3}`, greedy. -/
def d13 : Pat := .seq digitPat (.opt (.seq digitPat (.opt digitPat)))

def d3 : Pat := .seq digitPat (.seq digitPat digitPat)

def d4 : Pat := .seq digitPat d3

def d10 : Pat := .seq d3 (.seq d3 d4)

/-- `(\+\d{1,3}[-.\s]?)` — the single capture group of each phone pattern. -/
def ccGroup : Pat := .grp (.seq (.cls (· = '+')) (.seq d13 (.opt sepPat)))

/-- `(\+\d{1,3}[-.\s]?)?\(?\d{3}\)?[-.\s]?\d{3}[-.\s]?\d{4}` -/
def phone_pattern1 : Pat :=
  .seq (.opt ccGroup) (.seq (.opt (.cls (· = '('))) (.seq d3 (.seq (.opt (.cls (· = ')')))
    (.seq (.opt sepPat) (.seq d3 (.seq (.opt sepPat) d4))))))

/-- `(\+\d{1,3}[-.\s]?)?\d{3}[-.\s]?\d{3}[-.\s]?\d{4}` -/
def phone_pattern2 : Pat :=
  .seq (.opt ccGroup) (.seq d3 (.seq (.opt sepPat) (.seq d3 (.seq (.opt sepPat) d4))))

/-- `(\+\d{1,3}[-.\s]?)?\d{10}` -/
def phone_pattern3 : Pat := .seq (.opt ccGroup) d10

/-- `NLPExtractor._extract_phone`: try the three patterns in order; each
pattern has one capture group, so `re.findall` yields strings (its group-1
captures) and the `isinstance(phones[0], str)` branch returns `phones[0]`
directly; fall through to the sentinel when no pattern matches. -/
def _extract_phone (text : String) : String :=
  match findFirstGroup phone_pattern1 text.data with
  | some g => g
  | none =>
    match findFirstGroup phone_pattern2 text.data with
    | some g => g
    | none =>
      match findFirstGroup phone_pattern3 text.data with
      | some g => g
      | none => "Phone not found"

/-! ### `NLPExtractor._extract_education` -/

/-- `NLPExtractor._load_education_keywords`, in dict insertion order. -/
def education_keywords : List (String × ℕ) :=
  [("phd", 4), ("doctorate", 4), ("ph.d", 4),
   ("master", 3), ("masters", 3), ("mba", 3), ("ms", 3), ("ma", 3), ("m.s", 3), ("m.a", 3),
   ("bachelor", 2), ("bachelors", 2), ("bs", 2), ("ba", 2), ("b.s", 2), ("b.a", 2),
   ("be", 2), ("b.e", 2),
   ("associate", 1), ("diploma", 1), ("certificate", 1),
   ("high school", 0), ("secondary", 0), ("graduation", 0)]

/-- The `levels` dict of `_format_education_level`. -/
def education_level_labels : List (ℕ × String) :=
  [(0, "High School"), (1, "Certificate/Diploma"), (2, "Bachelor's Degree"),
   (3, "Master's Degree"), (4, "PhD")]

/-- `NLPExtractor._format_education_level` (`dict.get` with default). -/
def _format_education_level (level : ℕ) : String :=
  ((education_level_labels.find? (fun kv => kv.1 == level)).map (fun kv => kv.2)).getD
    "Not specified"

/-- `NLPExtractor._extract_education`: fold the keyword table over the
lower-cased text, keeping `(highest_level, highest_education)`; an entry
updates the state only when its keyword occurs and its level is strictly
greater than the current `highest_level` (initially `0`). -/
def _extract_education (text : String) : String :=
  let text_lower := pyLower text
  (education_keywords.foldl (fun acc kv =>
    if containsSub kv.1.data text_lower.data then
      if acc.1 < kv.2 then (kv.2, _format_education_level kv.2) else acc
    else acc) ((0 : ℕ), "Not specified")).2

/-! ### `NLPExtractor._extract_skills` -/

/-- `NLPExtractor._load_skill_keywords`. -/
def skill_keywords : List String :=
  ["python", "java", "javascript", "typescript", "c++", "c#", "php", "ruby", "go", "rust",
   "swift", "kotlin", "scala", "r", "matlab", "perl", "shell", "bash", "powershell",
   "html", "css", "react", "angular", "vue", "node.js", "express", "django", "flask",
   "spring", "laravel", "rails", "asp.net", "jquery", "bootstrap", "sass", "less",
   "sql", "mysql", "postgresql", "oracle", "mongodb", "redis", "elasticsearch",
   "cassandra", "dynamodb", "sqlite", "mariadb",
   "aws", "azure", "gcp", "docker", "kubernetes", "jenkins", "git", "gitlab", "github",
   "terraform", "ansible", "chef", "puppet", "ci/cd", "devops",
   "machine learning", "deep learning", "artificial intelligence", "data science",
   "pandas", "numpy", "scikit-learn", "tensorflow", "pytorch", "keras", "opencv",
   "nlp", "computer vision", "statistics", "data analysis", "big data", "hadoop", "spark",
   "android", "ios", "react native", "flutter", "xamarin", "cordova", "ionic",
   "microservices", "api", "rest", "graphql", "soap", "json", "xml", "agile", "scrum",
   "kanban", "jira", "confluence", "slack", "linux", "windows", "macos",
   "communication", "leadership", "teamwork", "problem solving", "analytical thinking",
   "project management", "time management", "adaptability", "creativity", "innovation"]

/-- Python's `\w` class (ASCII). -/
def isWordChar (c : Char) : Bool := c.isAlphanum || c = '_'

/-- Python's `\b` between an optional previous and next character: the two
sides disagree on word-char-ness (out of range counts as non-word). -/
def isBoundary (a b : Option Char) : Bool :=
  (match a with | some c => isWordChar c | none => false) !=
  (match b with | some c => isWordChar c | none => false)

/-- `\b<literal>\b` matches at the current position of the text, where `prev`
is the character just before the position. -/
def wbHere (pat : List Char) (prev : Option Char) (s : List Char) : Bool :=
  pat.isPrefixOf s && isBoundary prev pat.head? &&
    isBoundary pat.getLast? ((s.drop pat.length).head?)

/-- Scan all start positions, carrying the previous character. -/
def wbSearchAux (pat : List Char) : Option Char → List Char → Bool
  | prev, [] => wbHere pat prev []
  | prev, c :: rest => wbHere pat prev (c :: rest) || wbSearchAux pat (some c) rest

/-- `re.search(r'\b' + re.escape(pat) + r'\b', text) is not None`. -/
def wbSearch (pat text : List Char) : Bool := wbSearchAux pat none text

/-- Whether a vocabulary entry has a whole-word match in the lower-cased text
(the compiled pattern is `\b` + the escaped lower-cased keyword + `\b`). -/
def skillFound (text skill : String) : Bool :=
  wbSearch (pyLower skill).data (pyLower text).data

/-- `NLPExtractor._extract_skills`: title-case every matching vocabulary entry,
deduplicate (`list(set(...))`), sort (Python's code-point string order), and
keep the first 50. -/
def _extract_skills (text : String) : List String :=
  let found_skills := (skill_keywords.filter (fun skill => skillFound text skill)).map pyTitle
  ((found_skills.dedup).insertionSort (fun a b => strLe a.data b.data = true)).take 50

/-! ### `ScoringEngine` -/

/-- The `tech_families` dict of `_skills_similarity`, in insertion order. -/
def tech_families : List (String × List String) :=
  [("javascript", ["js", "node.js", "nodejs", "react", "angular", "vue"]),
   ("python", ["django", "flask", "pandas", "numpy", "tensorflow"]),
   ("java", ["spring", "hibernate", "maven", "gradle"]),
   ("database", ["sql", "mysql", "postgresql", "oracle", "mongodb"]),
   ("cloud", ["aws", "azure", "gcp", "docker", "kubernetes"])]

/-- `ScoringEngine._skills_similarity`: first matching rule wins — exact
equality 1.0; substring containment either way 0.8; technology-family relation
0.7; otherwise Jaccard similarity of the character sets (0.0 when both are
empty). -/
def _skills_similarity (skill1 skill2 : String) : ℚ :=
  let skill1_lower := pyLower skill1
  let skill2_lower := pyLower skill2
  if skill1_lower = skill2_lower then 1.0
  else if containsSub skill1_lower.data skill2_lower.data ||
          containsSub skill2_lower.data skill1_lower.data then 0.8
  else if tech_families.any (fun fam =>
      (skill1_lower == fam.1 && fam.2.contains skill2_lower) ||
      (skill2_lower == fam.1 && fam.2.contains skill1_lower) ||
      (fam.2.contains skill1_lower && fam.2.contains skill2_lower)) then 0.7
  else
    let common_chars := skill1_lower.data.toFinset ∩ skill2_lower.data.toFinset
    let total_chars := skill1_lower.data.toFinset ∪ skill2_lower.data.toFinset
    if 0 < total_chars.card then (common_chars.card : ℚ) / (total_chars.card : ℚ) else 0.0

/-- `ScoringEngine._score_skills` on the candidate's and the job's skill
lists (both are lower-cased first, as in the source). -/
def _score_skills (resume_skills_in required_skills_in : List String) : ℚ :=
  let resume_skills := resume_skills_in.map pyLower
  let required_skills := required_skills_in.map pyLower
  if required_skills = [] then 80.0
  else
    let exact_matches := (required_skills.filter (fun skill => resume_skills.contains skill)).length
    let exact_match_score : ℚ := ((exact_matches : ℚ) / (required_skills.length : ℚ)) * 100
    let fuzzy_matches : ℚ := required_skills.foldl (fun acc req_skill =>
      if resume_skills.contains req_skill then acc
      else if resume_skills.any (fun resume_skill =>
          decide ((0.7 : ℚ) < _skills_similarity req_skill resume_skill)) then acc + 0.8
      else acc) 0
    let fuzzy_match_score : ℚ := (fuzzy_matches / (required_skills.length : ℚ)) * 100
    let combined_score := min (exact_match_score + fuzzy_match_score * 0.5) 100
    let skill_bonus : ℚ :=
      if 10 < resume_skills.length then min ((resume_skills.length : ℚ) * 2) 20 else 0
    min (combined_score + skill_bonus) 100

/-- `ScoringEngine._score_experience`. -/
def _score_experience (resume_experience required_experience : ℚ) : ℚ :=
  if required_experience = 0 then 100.0
  else if required_experience ≤ resume_experience then
    let base_score : ℚ := 100
    let bonus := min ((resume_experience - required_experience) * 5) 20
    min (base_score + bonus) 100
  else
    let ratio := resume_experience / required_experience
    max (ratio * 80) 10

/-- The `education_levels` dict of `_score_education`. -/
def education_levels : List (String × ℕ) :=
  [("High School", 1), ("Certificate/Diploma", 2), ("Bachelor's Degree", 3),
   ("Master's Degree", 4), ("PhD", 5)]

/-- `dict.get(key, 1)` on `education_levels`. -/
def educationLevelOf (s : String) : ℕ :=
  ((education_levels.find? (fun kv => kv.1 == s)).map (fun kv => kv.2)).getD 1

/-- `ScoringEngine._score_education`. -/
def _score_education (resume_education required_education : String) : ℚ :=
  let resume_level : ℚ := (educationLevelOf resume_education : ℕ)
  let required_level : ℚ := (educationLevelOf required_education : ℕ)
  if required_level ≤ resume_level then
    min (100 + max ((resume_level - required_level) * 10) 0) 100
  else
    max (resume_level / required_level * 70) 30

/-- `ScoringEngine._analyze_skills`: (matched, missing, additional). -/
def _analyze_skills (resume_skills_in required_skills_in : List String) :
    List String × List String × List String :=
  let resume_skills := resume_skills_in.map pyLower
  let required_skills := required_skills_in.map pyLower
  let pairs := required_skills.foldl (fun (acc : List String × List String) req_skill =>
    if resume_skills.contains req_skill then (acc.1 ++ [pyTitle req_skill], acc.2)
    else
      match resume_skills.find? (fun resume_skill =>
          decide ((0.7 : ℚ) < _skills_similarity req_skill resume_skill)) with
      | some resume_skill =>
        (acc.1 ++ [pyTitle resume_skill ++ " (similar to " ++ pyTitle req_skill ++ ")"], acc.2)
      | none => (acc.1, acc.2 ++ [pyTitle req_skill])) ([], [])
  let additional_skills := (resume_skills.filter (fun resume_skill =>
    !required_skills.contains resume_skill &&
    !required_skills.any (fun req_skill =>
        decide ((0.7 : ℚ) < _skills_similarity resume_skill req_skill)))).map pyTitle
  (pairs.1, pairs.2, additional_skills.take 20)

/-- `ScoringEngine._generate_recommendation`. -/
def _generate_recommendation (total_score : ℚ) : String :=
  if 85 ≤ total_score then "🟢 Strong Match - Highly Recommended"
  else if 70 ≤ total_score then "🟡 Good Match - Recommended"
  else if 55 ≤ total_score then "🟠 Fair Match - Consider with reservations"
  else if 40 ≤ total_score then "🔴 Poor Match - Not recommended"
  else "🔴 Very Poor Match - Reject"

/-- The engine's weight state. -/
structure Weights where
  skills : ℚ
  experience : ℚ
  education : ℚ

/-- The default weights set in `ScoringEngine.__init__`. -/
def initWeights : Weights := ⟨0.5, 0.3, 0.2⟩

/-- `ScoringEngine.adjust_weights`: renormalize when the sum is positive,
otherwise leave the weights unchanged. -/
def adjust_weights (w : Weights) (skills_weight experience_weight education_weight : ℚ) :
    Weights :=
  let total := skills_weight + experience_weight + education_weight
  if 0 < total then
    ⟨skills_weight / total, experience_weight / total, education_weight / total⟩
  else w

/-- Python `round(x, 1)`: scale by 10, round half to even, scale back. -/
def pyRound1 (q : ℚ) : ℚ :=
  let scaled := q * 10
  let fl : ℤ := ⌊scaled⌋
  let frac : ℚ := scaled - (fl : ℚ)
  let n : ℤ :=
    if frac < 1/2 then fl
    else if (1 : ℚ)/2 < frac then fl + 1
    else if fl % 2 = 0 then fl else fl + 1
  (n : ℚ) / 10

/-- The extracted resume fields consumed by the scoring engine. -/
structure ResumeData where
  skills : List String
  experience_years : ℚ
  education : String

/-- The job-requirement fields consumed by the scoring engine. -/
structure JobRequirements where
  required_skills : List String
  experience_years : ℚ
  education_level : String

/-- The dictionary returned by `ScoringEngine.score_resume`. -/
structure ScoreResult where
  total_score : ℚ
  skills_score : ℚ
  experience_score : ℚ
  education_score : ℚ
  matched_skills : List String
  missing_skills : List String
  additional_skills : List String
  recommendation : String

/-- The unrounded weighted total computed inside `score_resume`. -/
def rawTotal (w : Weights) (resume_data : ResumeData) (job : JobRequirements) : ℚ :=
  _score_skills resume_data.skills job.required_skills * w.skills +
  _score_experience resume_data.experience_years job.experience_years * w.experience +
  _score_education resume_data.education job.education_level * w.education

/-- `ScoringEngine.score_resume` (`w` is the engine's current weight state).
Reported scores are rounded to one decimal; the recommendation is generated
from the unrounded `total_score` variable. -/
def score_resume (w : Weights) (resume_data : ResumeData) (job : JobRequirements) :
    ScoreResult :=
  let skills_score := _score_skills resume_data.skills job.required_skills
  let experience_score := _score_experience resume_data.experience_years job.experience_years
  let education_score := _score_education resume_data.education job.education_level
  let total_score := skills_score * w.skills + experience_score * w.experience +
    education_score * w.education
  let skill_analysis := _analyze_skills resume_data.skills job.required_skills
  { total_score := pyRound1 total_score
    skills_score := pyRound1 skills_score
    experience_score := pyRound1 experience_score
    education_score := pyRound1 education_score
    matched_skills := skill_analysis.1
    missing_skills := skill_analysis.2.1
    additional_skills := skill_analysis.2.2
    recommendation := _generate_recommendation total_score }

/-- The `try/except` loop body of `batch_score_resumes`: keep the successfully
scored records in order, skip the ones whose scoring raised. -/
def collectScored {C S : Type} (score : C → Except String S) : List C → List S
  | [] => []
  | resume :: rest =>
    match score resume with
    | .ok s => s :: collectScored score rest
    | .error _ => collectScored score rest

/-- `ScoringEngine.batch_score_resumes`, over an arbitrary per-resume scoring
step (modelling that scoring an individual resume may raise) and a total-score
projection; finishes with Python's stable sort, descending by total score. -/
def batch_score_resumes {C S : Type} (score : C → Except String S) (total_score : S → ℚ)
    (resumes : List C) : List S :=
  (collectScored score resumes).insertionSort (fun a b => total_score b ≤ total_score a)

/-- The skills score as claim C4 words it: exact fraction, fuzzy credits of
0.8 per required skill that is absent verbatim but has a similar candidate
skill, combination capped at 100, then the many-skills bonus, capped at 100. -/
def skillsScoreSpec (candidate required : List String) : ℚ :=
  if required.length = 0 then 80.0
  else
    let exactCount : ℚ :=
      ((required.filter (fun r => candidate.any (fun c => pyLower c == pyLower r))).length : ℚ)
    let exactScore : ℚ := 100 * exactCount / (required.length : ℚ)
    let fuzzyCredits : ℚ := 0.8 *
      ((required.filter (fun r =>
        !(candidate.any (fun c => pyLower c == pyLower r)) &&
        candidate.any (fun c =>
          decide ((0.7 : ℚ) < _skills_similarity (pyLower r) (pyLower c))))).length : ℚ)
    let fuzzyScore : ℚ := 100 * fuzzyCredits / (required.length : ℚ)
    let bonus : ℚ := if 10 < candidate.length then min ((candidate.length : ℚ) * 2) 20 else 0
    min (min (exactScore + fuzzyScore * 0.5) 100 + bonus) 100

/-! Concrete inputs whose unrounded totals fall just below the 85/70/55/40
recommendation band boundaries while rounding up to the boundary. -/

def cand85 : ResumeData := ⟨["Python"], 499/100, "PhD"⟩

def job85 : JobRequirements := ⟨["python"], 8, "High School"⟩

def cand70 : ResumeData := ⟨["Python"], 73/10, "Master's Degree"⟩

def job70 : JobRequirements := ⟨["python"], 20, "PhD"⟩

def cand55 : ResumeData := ⟨["Python"], 83/10, "Bachelor's Degree"⟩

def job55 : JobRequirements := ⟨["python", "sql"], 20, "Bachelor's Degree"⟩

def cand40 : ResumeData := ⟨[], 1665/100, "Not specified"⟩

def job40 : JobRequirements := ⟨["sql"], 20, "High School"⟩

/-! ## Theorems -/

/-- C1 (code_bug evidence): each phone pattern's only capture group is the
optional country code, and `re.findall` with one group returns the group
captures, not the full matches.  So on `"555-123-4567"` the first pattern
matches but its group did not participate, and the extractor returns the empty
string — contradicting both "returns the first match found by any pattern" and
"the returned phone string is never empty".  With a country code present, only
the country-code prefix is returned.  The sentinel case does behave as
claimed. -/
theorem extract_phone_findall_group_bug :
    _extract_phone "555-123-4567" = "" ∧
    _extract_phone "+1 555-123-4567" = "+1 " ∧
    _extract_phone "call me maybe" = "Phone not found" :=
  ⟨by decide, by decide, by decide⟩

/-- C2 (code_bug evidence): `_extract_education` starts with
`highest_level = 0` and only updates on `level > highest_level`, so a level-0
keyword ("high school", "secondary", "graduation") can never set the label:
the text `"high school"` yields `"Not specified"`, not `"High School"` — even
though the label table maps 0 to "High School".  Higher levels work as
claimed. -/
theorem extract_education_level_zero_bug :
    _extract_education "high school" = "Not specified" ∧
    _format_education_level 0 = "High School" ∧
    _extract_education "bachelor of science" = "Bachelor's Degree" :=
  ⟨by decide, by decide, by decide⟩

/-- C3: if the job requires 0 years the experience score is 100; if the
candidate meets or exceeds a positive requirement the score is exactly 100
(the +100 base saturates the cap, the bonus never changes the result); below
the requirement the score is `max((candidate/required)*80, 10)`. -/
theorem score_experience_spec (c r : ℚ) :
    (r = 0 → _score_experience c r = 100) ∧
    (0 < r → r ≤ c → _score_experience c r = 100) ∧
    (r ≠ 0 → c < r → _score_experience c r = max (c / r * 80) 10) := by
  refine ⟨fun h => by norm_num [_score_experience, h], fun hr hc => ?_, fun hr hc => ?_⟩
  · have hne : r ≠ 0 := ne_of_gt hr
    simp only [_score_experience, if_neg hne, if_pos hc]
    have hb : (0 : ℚ) ≤ min ((c - r) * 5) 20 :=
      le_min (by nlinarith) (by norm_num)
    have h100 : (100 : ℚ) ≤ 100 + min ((c - r) * 5) 20 := by linarith
    exact min_eq_right h100
  · have hnc : ¬ r ≤ c := not_le.mpr hc
    simp [_score_experience, hr, hnc]

theorem score_experience_spec_witness :
    _score_experience 5 3 = 100 ∧ _score_experience 1 4 = max ((1 : ℚ) / 4 * 80) 10 :=
  ⟨(score_experience_spec 5 3).2.1 (by norm_num) (by norm_num),
   (score_experience_spec 1 4).2.2 (by norm_num) (by norm_num)⟩

/-- C6: the weights start at {0.5, 0.3, 0.2} (summing to 1); `adjust_weights`
with non-negative arguments renormalizes them to sum to 1 when their sum is
positive (so (1,1,1) becomes 1/3 each) and is a no-op retaining the prior
weights when the sum is 0 — in either case the sum-to-1 invariant is
preserved. -/
theorem adjust_weights_spec :
    (initWeights.skills = 0.5 ∧ initWeights.experience = 0.3 ∧ initWeights.education = 0.2 ∧
      initWeights.skills + initWeights.experience + initWeights.education = 1) ∧
    ((adjust_weights initWeights 1 1 1).skills = 1/3 ∧
      (adjust_weights initWeights 1 1 1).experience = 1/3 ∧
      (adjust_weights initWeights 1 1 1).education = 1/3) ∧
    (∀ (w : Weights) (s e ed : ℚ), 0 ≤ s → 0 ≤ e → 0 ≤ ed →
      w.skills + w.experience + w.education = 1 →
      ((0 < s + e + ed →
          adjust_weights w s e ed = ⟨s/(s+e+ed), e/(s+e+ed), ed/(s+e+ed)⟩) ∧
       (s + e + ed = 0 → adjust_weights w s e ed = w) ∧
       (adjust_weights w s e ed).skills + (adjust_weights w s e ed).experience +
         (adjust_weights w s e ed).education = 1)) := by
  refine ⟨⟨rfl, rfl, rfl, by norm_num [initWeights]⟩,
    ⟨?_, ?_, ?_⟩, fun w s e ed hs he hed hsum => ⟨fun hpos => ?_, fun hzero => ?_, ?_⟩⟩
  · show (adjust_weights initWeights 1 1 1).skills = 1/3
    norm_num [adjust_weights]
  · norm_num [adjust_weights]
  · norm_num [adjust_weights]
  · simp only [adjust_weights, if_pos hpos]
  · simp only [adjust_weights, hzero]
    norm_num
  · by_cases hpos : 0 < s + e + ed
    · simp only [adjust_weights, if_pos hpos]
      have hne : s + e + ed ≠ 0 := ne_of_gt hpos
      field_simp
    · simp only [adjust_weights, if_neg hpos]
      exact hsum

theorem adjust_weights_spec_witness :
    adjust_weights initWeights 1 1 1 =
      ⟨1/(1+1+1), 1/(1+1+1), 1/(1+1+1)⟩ :=
  (adjust_weights_spec.2.2 initWeights 1 1 1 (by norm_num) (by norm_num) (by norm_num)
    (by norm_num [initWeights])).1 (by norm_num)

/-- C10: the recommendation label is computed from the unrounded weighted
total while the reported `total_score` is that total rounded to one decimal;
at each band boundary there are inputs whose unrounded total lies just below
the boundary (84.97, 69.96, 54.96, 39.98) so the record reports the boundary
value (85.0 / 70.0 / 55.0 / 40.0) together with the lower band's
recommendation. -/
theorem recommendation_unrounded_boundary :
    (∀ (w : Weights) (r : ResumeData) (j : JobRequirements),
      (score_resume w r j).total_score = pyRound1 (rawTotal w r j) ∧
      (score_resume w r j).recommendation = _generate_recommendation (rawTotal w r j)) ∧
    (rawTotal initWeights cand85 job85 = 8497/100 ∧
      (score_resume initWeights cand85 job85).total_score = 85 ∧
      (score_resume initWeights cand85 job85).recommendation =
        "🟡 Good Match - Recommended") ∧
    (rawTotal initWeights cand70 job70 = 1749/25 ∧
      (score_resume initWeights cand70 job70).total_score = 70 ∧
      (score_resume initWeights cand70 job70).recommendation =
        "🟠 Fair Match - Consider with reservations") ∧
    (rawTotal initWeights cand55 job55 = 1374/25 ∧
      (score_resume initWeights cand55 job55).total_score = 55 ∧
      (score_resume initWeights cand55 job55).recommendation =
        "🔴 Poor Match - Not recommended") ∧
    (rawTotal initWeights cand40 job40 = 1999/50 ∧
      (score_resume initWeights cand40 job40).total_score = 40 ∧
      (score_resume initWeights cand40 job40).recommendation =
        "🔴 Very Poor Match - Reject") := by
  have hgen : ∀ (w : Weights) (r : ResumeData) (j : JobRequirements),
      (score_resume w r j).total_score = pyRound1 (rawTotal w r j) ∧
      (score_resume w r j).recommendation = _generate_recommendation (rawTotal w r j) :=
    fun w r j => ⟨rfl, rfl⟩
  have h85 : rawTotal initWeights cand85 job85 = 8497/100 := by
    have h1 : _score_skills ["Python"] ["python"] = 100 := by with_unfolding_all decide
    have h2 : _score_experience (499/100) 8 = 499/10 := by with_unfolding_all decide
    have h3 : _score_education "PhD" "High School" = 100 := by with_unfolding_all decide
    simp only [rawTotal, cand85, job85, initWeights]
    rw [h1, h2, h3]
    norm_num
  have h70 : rawTotal initWeights cand70 job70 = 1749/25 := by
    have h1 : _score_skills ["Python"] ["python"] = 100 := by with_unfolding_all decide
    have h2 : _score_experience (73/10) 20 = 146/5 := by with_unfolding_all decide
    have h3 : _score_education "Master's Degree" "PhD" = 56 := by with_unfolding_all decide
    simp only [rawTotal, cand70, job70, initWeights]
    rw [h1, h2, h3]
    norm_num
  have h55 : rawTotal initWeights cand55 job55 = 1374/25 := by
    have h1 : _score_skills ["Python"] ["python", "sql"] = 50 := by with_unfolding_all decide
    have h2 : _score_experience (83/10) 20 = 166/5 := by with_unfolding_all decide
    have h3 : _score_education "Bachelor's Degree" "Bachelor's Degree" = 100 := by
      with_unfolding_all decide
    simp only [rawTotal, cand55, job55, initWeights]
    rw [h1, h2, h3]
    norm_num
  have h40 : rawTotal initWeights cand40 job40 = 1999/50 := by
    have h1 : _score_skills [] ["sql"] = 0 := by with_unfolding_all decide
    have h2 : _score_experience (1665/100) 20 = 333/5 := by with_unfolding_all decide
    have h3 : _score_education "Not specified" "High School" = 100 := by
      with_unfolding_all decide
    simp only [rawTotal, cand40, job40, initWeights]
    rw [h1, h2, h3]
    norm_num
  refine ⟨hgen,
    ⟨h85, ?_, ?_⟩, ⟨h70, ?_, ?_⟩, ⟨h55, ?_, ?_⟩, ⟨h40, ?_, ?_⟩⟩
  · rw [(hgen initWeights cand85 job85).1, h85]; with_unfolding_all decide
  · rw [(hgen initWeights cand85 job85).2, h85]; with_unfolding_all decide
  · rw [(hgen initWeights cand70 job70).1, h70]; with_unfolding_all decide
  · rw [(hgen initWeights cand70 job70).2, h70]; with_unfolding_all decide
  · rw [(hgen initWeights cand55 job55).1, h55]; with_unfolding_all decide
  · rw [(hgen initWeights cand55 job55).2, h55]; with_unfolding_all decide
  · rw [(hgen initWeights cand40 job40).1, h40]; with_unfolding_all decide
  · rw [(hgen initWeights cand40 job40).2, h40]; with_unfolding_all decide

/-- C7: the similarity is always in [0,1], equals 1.0 on equal arguments, and
is symmetric — each of the four rules (equality, containment, family,
character-set Jaccard) has a symmetric condition and a symmetric value, so the
first matching rule is the same for both argument orders. -/
theorem skills_similarity_spec (a b : String) :
    (0 ≤ _skills_similarity a b ∧ _skills_similarity a b ≤ 1) ∧
    _skills_similarity a a = 1 ∧
    _skills_similarity a b = _skills_similarity b a := by
  refine ⟨?_, ?_, ?_⟩
  · simp only [_skills_similarity]
    split_ifs with h1 h2 h3 h4
    · norm_num
    · norm_num
    · norm_num
    · constructor
      · positivity
      · rw [div_le_one (by exact_mod_cast h4)]
        exact_mod_cast Finset.card_le_card
          ((Finset.inter_subset_left).trans Finset.subset_union_left)
    · norm_num
  · simp only [_skills_similarity, if_pos rfl]
    norm_num
  · simp only [_skills_similarity]
    by_cases h1 : pyLower a = pyLower b
    · rw [if_pos h1, if_pos h1.symm]
    · rw [if_neg h1, if_neg (Ne.symm h1), Bool.or_comm]
      by_cases h2 : (containsSub (pyLower b).data (pyLower a).data ||
          containsSub (pyLower a).data (pyLower b).data) = true
      · simp only [if_pos h2]
      · simp only [if_neg h2]
        have hfam : (tech_families.any fun fam =>
            (pyLower a == fam.1 && fam.2.contains (pyLower b)) ||
            (pyLower b == fam.1 && fam.2.contains (pyLower a)) ||
            (fam.2.contains (pyLower a) && fam.2.contains (pyLower b)))
          = (tech_families.any fun fam =>
            (pyLower b == fam.1 && fam.2.contains (pyLower a)) ||
            (pyLower a == fam.1 && fam.2.contains (pyLower b)) ||
            (fam.2.contains (pyLower b) && fam.2.contains (pyLower a))) := by
          apply congrArg
          funext fam
          cases ha1 : pyLower a == fam.1 <;> cases hb1 : pyLower b == fam.1 <;>
            cases hca : fam.2.contains (pyLower a) <;>
            cases hcb : fam.2.contains (pyLower b) <;> rfl
        rw [← hfam]
        by_cases h3 : (tech_families.any fun fam =>
            (pyLower a == fam.1 && fam.2.contains (pyLower b)) ||
            (pyLower b == fam.1 && fam.2.contains (pyLower a)) ||
            (fam.2.contains (pyLower a) && fam.2.contains (pyLower b))) = true
        · simp only [if_pos h3]
        · simp only [if_neg h3]
          rw [Finset.union_comm (pyLower b).data.toFinset (pyLower a).data.toFinset,
            Finset.inter_comm (pyLower b).data.toFinset (pyLower a).data.toFinset]

/-- A record scored successfully from a listed resume is collected. -/
theorem mem_collectScored {C S : Type} (score : C → Except String S) (c : C) (s : S) :
    ∀ l : List C, c ∈ l → score c = .ok s → s ∈ collectScored score l := by
  intro l
  induction l with
  | nil => intro hm _; cases hm
  | cons x xs ih =>
    intro hm hok
    rcases List.mem_cons.mp hm with h | h
    · subst h
      unfold collectScored
      rw [hok]
      exact List.mem_cons_self _ _
    · unfold collectScored
      cases hx : score x with
      | ok t => exact List.mem_cons_of_mem _ (ih h hok)
      | error e => exact ih h hok

/-- C5: batch scoring returns exactly the successfully scored records — a
permutation of the collected successes — sorted by total score descending; an
error while scoring one candidate excludes only that candidate, every other
successfully scored record still appears; totals [40, 90, 70] come back
ordered [90, 70, 40]. -/
theorem batch_score_spec :
    (∀ (C S : Type) (score : C → Except String S) (total : S → ℚ) (resumes : List C),
      (batch_score_resumes score total resumes).Perm (collectScored score resumes) ∧
      (batch_score_resumes score total resumes).Pairwise (fun x y => total y ≤ total x) ∧
      (∀ c ∈ resumes, ∀ s, score c = .ok s →
        s ∈ batch_score_resumes score total resumes)) ∧
    batch_score_resumes (fun q : ℚ => Except.ok q) (fun q => q) [40, 90, 70] = [90, 70, 40] := by
  constructor
  · intro C S score total resumes
    have hperm : (batch_score_resumes score total resumes).Perm
        (collectScored score resumes) := List.perm_insertionSort _ _
    refine ⟨hperm, ?_, ?_⟩
    · haveI : IsTotal S (fun x y => total y ≤ total x) :=
        ⟨fun x y => le_total (total y) (total x)⟩
      haveI : IsTrans S (fun x y => total y ≤ total x) :=
        ⟨fun x y z h1 h2 => le_trans h2 h1⟩
      exact List.sorted_insertionSort _ _
    · intro c hc s hok
      exact hperm.mem_iff.mpr (mem_collectScored score c s resumes hc hok)
  · with_unfolding_all decide

theorem batch_score_spec_witness :
    (2 : ℚ) ∈ batch_score_resumes
      (fun n : ℕ => if n = 0 then Except.error "fail" else Except.ok (n : ℚ))
      (fun q => q) [0, 2] :=
  (batch_score_spec.1 ℕ ℚ _ _ [0, 2]).2.2 2 (by decide) 2 rfl

/-- String `==` is symmetric. -/
theorem strBeq_comm (x y : String) : (x == y) = (y == x) := by
  by_cases h : x = y
  · subst h; rfl
  · simp [h, Ne.symm h]

/-- Membership in the lower-cased list, as a scan of the original list. -/
theorem contains_map_pyLower (l : List String) (x : String) :
    (l.map pyLower).contains x = l.any (fun c => pyLower c == x) := by
  induction l with
  | nil => rfl
  | cons c cs ih =>
    rw [List.map_cons, List.contains_cons, List.any_cons, ih, strBeq_comm]

/-- A fold adding a fixed credit for each element satisfying a predicate
counts the matching elements. -/
theorem foldl_if_credit {α : Type} (p : α → Bool) (c : ℚ) :
    ∀ (l : List α) (a : ℚ),
      l.foldl (fun acc x => if p x then acc + c else acc) a
        = a + c * ((l.filter p).length : ℚ)
  | [], a => by simp
  | x :: l, a => by
    by_cases h : p x
    · simp [List.foldl_cons, List.filter_cons, h, foldl_if_credit p c l]
      ring
    · simp [List.foldl_cons, List.filter_cons, h, foldl_if_credit p c l]

/-- C4: the skills score is 80.0 when the job has no required skills, and
otherwise equals `min(min(exactScore + fuzzyScore*0.5, 100) + bonus, 100)`
with `exactScore = 100 * (#required present verbatim case-insensitively in the
candidate skills) / #required`, `fuzzyScore = 100 * fuzzyCredits / #required`
where at most one 0.8 credit is awarded per required skill absent verbatim but
similar (> 0.7) to some candidate skill, and `bonus = min(#candidateSkills*2,
20)` when the candidate has more than 10 skills, else 0. -/
theorem score_skills_eq_spec (candidate required : List String) :
    _score_skills candidate required = skillsScoreSpec candidate required := by
  unfold _score_skills skillsScoreSpec
  by_cases hreq : required = []
  · simp [hreq]
  · have hmapne : ¬ (required.map pyLower = []) := by
      simpa using hreq
    have hlenne : ¬ (required.length = 0) := by
      simpa [List.length_eq_zero] using hreq
    rw [if_neg hmapne, if_neg hlenne]
    have hfun : (fun (acc : ℚ) req_skill =>
        if (candidate.map pyLower).contains req_skill then acc
        else if (candidate.map pyLower).any (fun resume_skill =>
            decide ((0.7 : ℚ) < _skills_similarity req_skill resume_skill)) then acc + 0.8
        else acc)
      = (fun (acc : ℚ) req_skill =>
        if (!(candidate.map pyLower).contains req_skill &&
            (candidate.map pyLower).any (fun resume_skill =>
              decide ((0.7 : ℚ) < _skills_similarity req_skill resume_skill))) then acc + 0.8
        else acc) := by
      funext acc x
      cases hA : (candidate.map pyLower).contains x <;>
        cases hB : (candidate.map pyLower).any (fun resume_skill =>
          decide ((0.7 : ℚ) < _skills_similarity x resume_skill)) <;>
        simp [hA, hB]
    rw [hfun, foldl_if_credit]
    have hexact : ((required.map pyLower).filter
        (fun skill => (candidate.map pyLower).contains skill)).length
        = (required.filter
            (fun r => candidate.any (fun c => pyLower c == pyLower r))).length := by
      rw [List.filter_map, List.length_map]
      congr 1
      apply List.filter_congr
      intro x _
      exact contains_map_pyLower candidate (pyLower x)
    have hfuzzy : ((required.map pyLower).filter
        (fun req_skill => !(candidate.map pyLower).contains req_skill &&
          (candidate.map pyLower).any (fun resume_skill =>
            decide ((0.7 : ℚ) < _skills_similarity req_skill resume_skill)))).length
        = (required.filter (fun r =>
            !(candidate.any (fun c => pyLower c == pyLower r)) &&
            candidate.any (fun c =>
              decide ((0.7 : ℚ) < _skills_similarity (pyLower r) (pyLower c))))).length := by
      rw [List.filter_map, List.length_map]
      congr 1
      apply List.filter_congr
      intro x _
      show (!(candidate.map pyLower).contains (pyLower x) &&
          (candidate.map pyLower).any (fun resume_skill =>
            decide ((0.7 : ℚ) < _skills_similarity (pyLower x) resume_skill)))
        = _
      rw [contains_map_pyLower, List.any_map]
      rfl
    rw [hexact, hfuzzy, List.length_map, List.length_map]
    ring_nf

theorem strLe_total : ∀ a b : List Char, strLe a b = true ∨ strLe b a = true
  | [], _ => Or.inl rfl
  | _ :: _, [] => Or.inr rfl
  | x :: xs, y :: ys => by
    rcases lt_trichotomy x y with h | h | h
    · left; simp [strLe, h]
    · subst h
      rcases strLe_total xs ys with ih | ih
      · left; simp [strLe, lt_irrefl, ih]
      · right; simp [strLe, lt_irrefl, ih]
    · right; simp [strLe, h]

theorem strLe_trans : ∀ a b c : List Char,
    strLe a b = true → strLe b c = true → strLe a c = true
  | [], _, _ => fun _ _ => rfl
  | _ :: _, [], _ => fun h _ => by simp [strLe] at h
  | _ :: _, _ :: _, [] => fun _ h => by simp [strLe] at h
  | x :: xs, y :: ys, z :: zs => fun h1 h2 => by
    simp only [strLe] at h1 h2 ⊢
    rcases lt_trichotomy x y with hxy | hxy | hxy
    · rcases lt_trichotomy y z with hyz | hyz | hyz
      · simp [lt_trans hxy hyz]
      · subst hyz; simp [hxy]
      · rw [if_neg (asymm hyz), if_pos hyz] at h2
        simp at h2
    · subst hxy
      rw [if_neg (lt_irrefl x), if_neg (lt_irrefl x)] at h1
      rcases lt_trichotomy x z with hxz | hxz | hxz
      · simp [hxz]
      · subst hxz
        rw [if_neg (lt_irrefl x), if_neg (lt_irrefl x)] at h2 ⊢
        exact strLe_trans xs ys zs h1 h2
      · rw [if_neg (asymm hxz), if_pos hxz] at h2
        simp at h2
    · rw [if_neg (asymm hxy), if_pos hxy] at h1
      simp at h1

/-- C9: skills extraction returns title-cased vocabulary terms that have a
case-insensitive whole-word match in the text, with no duplicates under
case-insensitive comparison, sorted in Python's lexicographic string order,
capped at 50 entries (membership is exact whenever at most 50 vocabulary terms
match); "Python python PYTHON" yields exactly ["Python"]. -/
theorem extract_skills_spec :
    (∀ text : String,
      ((_extract_skills text).map pyLower).Nodup ∧
      (_extract_skills text).Pairwise (fun a b => strLe a.data b.data = true) ∧
      (_extract_skills text).length ≤ 50 ∧
      (∀ x, x ∈ _extract_skills text →
        ∃ u ∈ skill_keywords, skillFound text u = true ∧ x = pyTitle u) ∧
      ((skill_keywords.filter (fun u => skillFound text u)).length ≤ 50 →
        ∀ u ∈ skill_keywords, skillFound text u = true →
          pyTitle u ∈ _extract_skills text)) ∧
    _extract_skills "Python python PYTHON" = ["Python"] := by
  constructor
  · intro text
    have hvocab_lower : ∀ u ∈ skill_keywords, pyLower (pyTitle u) = u := by decide
    have hvocab_nodup : skill_keywords.Nodup := by decide
    simp only [_extract_skills]
    set pred : String → Bool := fun skill => skillFound text skill with hpreddef
    set found : List String := (skill_keywords.filter pred).map pyTitle with hfounddef
    set r : String → String → Prop := fun a b => strLe a.data b.data = true with hrdef
    have hfl : found.map pyLower = skill_keywords.filter pred := by
      rw [hfounddef, List.map_map]
      have : ∀ a ∈ skill_keywords.filter pred, (pyLower ∘ pyTitle) a = id a := fun a ha =>
        hvocab_lower a (List.mem_of_mem_filter ha)
      rw [List.map_congr_left this, List.map_id]
    have nd0 : (found.map pyLower).Nodup := by
      rw [hfl]
      exact List.Nodup.sublist (List.filter_sublist _) hvocab_nodup
    have nd1 : (found.dedup.map pyLower).Nodup :=
      List.Nodup.sublist (List.Sublist.map _ (List.dedup_sublist _)) nd0
    have nd2 : ((found.dedup.insertionSort r).map pyLower).Nodup :=
      (((List.perm_insertionSort r found.dedup).map pyLower).nodup_iff).mpr nd1
    have nd3 : (((found.dedup.insertionSort r).take 50).map pyLower).Nodup :=
      List.Nodup.sublist (List.Sublist.map _ (List.take_sublist _ _)) nd2
    haveI : IsTotal String r := ⟨fun a b => strLe_total a.data b.data⟩
    haveI : IsTrans String r := ⟨fun a b c => strLe_trans a.data b.data c.data⟩
    have hsorted : (found.dedup.insertionSort r).Pairwise r :=
      List.sorted_insertionSort r found.dedup
    refine ⟨nd3, ?_, ?_, ?_, ?_⟩
    · exact List.Pairwise.sublist (List.take_sublist _ _) hsorted
    · rw [List.length_take]
      exact min_le_left _ _
    · intro x hx
      have hx1 : x ∈ found.dedup.insertionSort r := List.take_subset _ _ hx
      have hx2 : x ∈ found.dedup := (List.perm_insertionSort r _).mem_iff.mp hx1
      have hx3 : x ∈ found := List.mem_dedup.mp hx2
      rcases List.mem_map.mp hx3 with ⟨u, hu, rfl⟩
      rcases List.mem_filter.mp hu with ⟨humem, hup⟩
      exact ⟨u, humem, hup, rfl⟩
    · intro hcap u humem hup
      have hdlen : found.dedup.length ≤ 50 := by
        refine le_trans (List.Sublist.length_le (List.dedup_sublist _)) ?_
        rw [hfounddef, List.length_map]
        exact hcap
      have hslen : (found.dedup.insertionSort r).length ≤ 50 := by
        rw [(List.perm_insertionSort r found.dedup).length_eq]
        exact hdlen
      rw [List.take_of_length_le hslen]
      refine (List.perm_insertionSort r _).mem_iff.mpr (List.mem_dedup.mpr ?_)
      exact List.mem_map.mpr ⟨u, List.mem_filter.mpr ⟨humem, hup⟩, rfl⟩
  · decide

theorem extract_skills_spec_witness :
    "Python" ∈ _extract_skills "Python python PYTHON" :=
  (extract_skills_spec.1 "Python python PYTHON").2.2.2.2 (by decide) "python"
    (by decide) (by decide)

theorem dropWhile_length_le (p : Char → Bool) :
    ∀ l : List Char, (l.dropWhile p).length ≤ l.length
  | [] => le_rfl
  | c :: t => by
    rw [List.dropWhile_cons]
    by_cases h : p c
    · simp only [h, if_true]
      exact le_trans (dropWhile_length_le p t) (Nat.le_succ _)
    · simp [h]

/-- Skipping leading whitespace does not change the word list. -/
theorem wordsAux_dropWhile (l : List Char) :
    wordsAux [] (l.dropWhile isWs) = wordsAux [] l := by
  induction l with
  | nil => rfl
  | cons c t ih =>
    rw [List.dropWhile_cons]
    by_cases h : isWs c
    · rw [if_pos h, ih]
      simp [wordsAux, h]
    · rw [if_neg h]

/-- Inside a whitespace run, the squeezer just skips the remaining
whitespace. -/
theorem squeezeAux_true_eq (l : List Char) :
    squeezeAux true l = squeezeAux false (l.dropWhile isWs) := by
  induction l with
  | nil => rfl
  | cons c t ih =>
    rw [List.dropWhile_cons]
    by_cases h : isWs c
    · rw [if_pos h]
      simpa [squeezeAux, h] using ih
    · rw [if_neg h]
      simp [squeezeAux, h]

/-- The squeezer passes a whitespace-free prefix through unchanged. -/
theorem squeezeAux_nonws_front :
    ∀ (w : List Char), (∀ c ∈ w, isWs c = false) → ∀ r : List Char,
      squeezeAux false (w ++ r) = w ++ squeezeAux false r
  | [], _, _ => rfl
  | c :: w', hw, r => by
    have hc : isWs c = false := hw c (List.mem_cons_self c w')
    simp only [List.cons_append, squeezeAux, hc, Bool.false_eq_true, if_false,
      List.append_eq]
    rw [squeezeAux_nonws_front w' (fun x hx => hw x (List.mem_cons_of_mem c hx)) r]

/-- The word scanner accumulates a whitespace-free prefix. -/
theorem wordsAux_nonws_front :
    ∀ (w : List Char), (∀ c ∈ w, isWs c = false) → ∀ (acc r : List Char),
      wordsAux acc (w ++ r) = wordsAux (w.reverse ++ acc) r
  | [], _, _, _ => by simp
  | c :: w', hw, acc, r => by
    have hc : isWs c = false := hw c (List.mem_cons_self c w')
    simp only [List.cons_append, wordsAux, hc, Bool.false_eq_true, if_false,
      List.append_eq]
    rw [wordsAux_nonws_front w' (fun x hx => hw x (List.mem_cons_of_mem c hx)) (c :: acc) r]
    simp

/-- The head of a `dropWhile` result fails the predicate. -/
theorem dropWhile_head_not (p : Char → Bool) :
    ∀ (l : List Char) (c : Char) (t : List Char), l.dropWhile p = c :: t → p c = false
  | [], c, t => by intro h; simp at h
  | x :: xs, c, t => by
    rw [List.dropWhile_cons]
    by_cases h : p x
    · rw [if_pos h]
      exact dropWhile_head_not p xs c t
    · rw [if_neg h]
      intro he
      cases he
      simpa using h

/-- `dropWhile` is the identity on whitespace-free lists. -/
theorem dropWhile_nonws (l : List Char) (h : ∀ c ∈ l, isWs c = false) :
    l.dropWhile isWs = l := by
  cases l with
  | nil => rfl
  | cons c t =>
    rw [List.dropWhile_cons, if_neg (by simp [h c (List.mem_cons_self c t)])]

/-- Stripping a whitespace-free list is the identity. -/
theorem pyStrip_nonws (w : List Char) (hw : ∀ c ∈ w, isWs c = false) :
    pyStrip w = w := by
  unfold pyStrip
  rw [dropWhile_nonws w hw,
    dropWhile_nonws _ (fun c hc => hw c (List.mem_reverse.mp hc)), List.reverse_reverse]

/-- End-stripping only touches the final block when that block does not strip
to nothing. -/
theorem stripEnd_append (u v : List Char) (hne : v.reverse.dropWhile isWs ≠ []) :
    ((u ++ v).reverse.dropWhile isWs).reverse
      = u ++ (v.reverse.dropWhile isWs).reverse := by
  rw [List.reverse_append, List.dropWhile_append,
    if_neg (by simpa [List.isEmpty_iff] using hne), List.reverse_append,
    List.reverse_reverse]

/-- A list starting with a non-whitespace character survives end-stripping. -/
theorem stripEnd_cons_ne_nil (c : Char) (hc : isWs c = false) (t : List Char) :
    (c :: t).reverse.dropWhile isWs ≠ [] := by
  rw [List.reverse_cons, List.dropWhile_append]
  by_cases h : (t.reverse.dropWhile isWs).isEmpty
  · rw [if_pos h]
    simp [List.dropWhile_cons, hc]
  · rw [if_neg h]
    simp only [List.isEmpty_iff] at h
    simp [h]

/-- Stripping a nonempty whitespace-free word with one trailing space yields
the word. -/
theorem pyStrip_word_space (w : List Char) (hwne : w ≠ [])
    (hw : ∀ c ∈ w, isWs c = false) : pyStrip (w ++ [' ']) = w := by
  unfold pyStrip
  have hfront : (w ++ [' ']).dropWhile isWs = w ++ [' '] := by
    rcases List.exists_cons_of_ne_nil hwne with ⟨b, L, hb⟩
    subst hb
    rw [List.cons_append, List.dropWhile_cons,
      if_neg (by simp [hw b (List.mem_cons_self b L)])]
  rw [hfront, List.reverse_append,
    show ([' '] : List Char).reverse = [' '] from rfl, List.singleton_append,
    List.dropWhile_cons, if_pos (show isWs ' ' = true from rfl),
    dropWhile_nonws _ (fun c hc => hw c (List.mem_reverse.mp hc)), List.reverse_reverse]

/-- Stripping a word, a separating space and a block that does not strip to
nothing keeps all three parts. -/
theorem pyStrip_word_sep (w Z : List Char) (hwne : w ≠ [])
    (hw : ∀ c ∈ w, isWs c = false) (hZne : Z.reverse.dropWhile isWs ≠ []) :
    pyStrip (w ++ ' ' :: Z) = w ++ ' ' :: (Z.reverse.dropWhile isWs).reverse := by
  unfold pyStrip
  have hfront : (w ++ ' ' :: Z).dropWhile isWs = w ++ ' ' :: Z := by
    rcases List.exists_cons_of_ne_nil hwne with ⟨b, L, hb⟩
    subst hb
    rw [List.cons_append, List.dropWhile_cons,
      if_neg (by simp [hw b (List.mem_cons_self b L)])]
  rw [hfront, show w ++ ' ' :: Z = (w ++ [' ']) ++ Z by simp,
    stripEnd_append (w ++ [' ']) Z hZne]
  simp

/-- A word list produced with a nonempty accumulator is nonempty. -/
theorem wordsAux_ne_nil : ∀ (l acc : List Char), acc ≠ [] → wordsAux acc l ≠ []
  | [], acc, h => by
    simp only [wordsAux, List.isEmpty_iff, if_neg h]
    simp
  | c :: t, acc, h => by
    by_cases hc : isWs c
    · simp only [wordsAux, hc, if_true, List.isEmpty_iff, if_neg h]
      simp
    · simp only [wordsAux, hc, Bool.false_eq_true, if_false]
      exact wordsAux_ne_nil t (c :: acc) (by simp)

/-- Core of claim C8: the embedded normalizer computes the word-join normal
form — whitespace runs collapsed to single spaces, ends stripped. -/
theorem clean_core : ∀ l : List Char,
    pyStrip (squeezeAux false l) = joinWords (wordsAux [] l)
  | [] => rfl
  | c :: t => by
    by_cases hc : isWs c
    · have h1 : squeezeAux false (c :: t) = ' ' :: squeezeAux false (t.dropWhile isWs) := by
        simp [squeezeAux, hc, squeezeAux_true_eq]
      have h2 : pyStrip (' ' :: squeezeAux false (t.dropWhile isWs))
          = pyStrip (squeezeAux false (t.dropWhile isWs)) := by
        unfold pyStrip
        rw [List.dropWhile_cons, if_pos (show isWs ' ' = true from rfl)]
      rw [h1, h2, clean_core (t.dropWhile isWs), wordsAux_dropWhile]
      simp [wordsAux, hc]
    · have hl : List.takeWhile (fun ch => !isWs ch) (c :: t) ++
          List.dropWhile (fun ch => !isWs ch) (c :: t) = c :: t :=
        List.takeWhile_append_dropWhile _ _
      have hw : ∀ x ∈ List.takeWhile (fun ch => !isWs ch) (c :: t), isWs x = false :=
        fun x hx => by simpa using List.mem_takeWhile_imp hx
      have hwne : List.takeWhile (fun ch => !isWs ch) (c :: t) ≠ [] := by
        rw [List.takeWhile_cons_of_pos (by simp [hc])]
        exact List.cons_ne_nil _ _
      rw [← hl, squeezeAux_nonws_front _ hw _, wordsAux_nonws_front _ hw [] _,
        List.append_nil]
      rcases hr : List.dropWhile (fun ch => !isWs ch) (c :: t) with _ | ⟨d, ds⟩
      · rw [show squeezeAux false ([] : List Char) = [] from rfl, List.append_nil]
        rw [pyStrip_nonws _ hw]
        rcases List.exists_cons_of_ne_nil hwne with ⟨b, L, hb⟩
        rw [hb]
        simp [wordsAux, joinWords]
      · have hd : isWs d = true := by
          simpa using dropWhile_head_not (fun ch => !isWs ch) (c :: t) d ds hr
        have hsq : squeezeAux false (d :: ds)
            = ' ' :: squeezeAux false (ds.dropWhile isWs) := by
          simp [squeezeAux, hd, squeezeAux_true_eq]
        have hwords : wordsAux (List.takeWhile (fun ch => !isWs ch) (c :: t)).reverse
            (d :: ds) = List.takeWhile (fun ch => !isWs ch) (c :: t) :: wordsAux [] ds := by
          have hrevne : (List.takeWhile (fun ch => !isWs ch) (c :: t)).reverse.isEmpty
              = false := by
            rcases List.exists_cons_of_ne_nil hwne with ⟨b, L, hb⟩
            rw [hb]
            simp
          simp [wordsAux, hd, hrevne]
        rw [hsq, hwords, ← wordsAux_dropWhile ds]
        rcases hds : ds.dropWhile isWs with _ | ⟨e, es⟩
        · simp only [squeezeAux]
          rw [pyStrip_word_space _ hwne hw]
          rcases List.exists_cons_of_ne_nil hwne with ⟨b, L, hb⟩
          rw [hb]
          simp [wordsAux, joinWords]
        · have he : isWs e = false := dropWhile_head_not isWs ds e es hds
          have hZhead : squeezeAux false (e :: es) = e :: squeezeAux false es := by
            simp [squeezeAux, he]
          have hZne : (squeezeAux false (e :: es)).reverse.dropWhile isWs ≠ [] := by
            rw [hZhead]
            exact stripEnd_cons_ne_nil e he (squeezeAux false es)
          rw [pyStrip_word_sep _ _ hwne hw hZne]
          have hrec : ((squeezeAux false (e :: es)).reverse.dropWhile isWs).reverse
              = joinWords (wordsAux [] (e :: es)) := by
            have hfront : (squeezeAux false (e :: es)).dropWhile isWs
                = squeezeAux false (e :: es) := by
              rw [hZhead, List.dropWhile_cons, if_neg (by simp [he])]
            have := clean_core (e :: es)
            unfold pyStrip at this
            rwa [hfront] at this
          rw [hrec]
          have hWne : wordsAux [] (e :: es) ≠ [] := by
            have heq : wordsAux [] (e :: es) = wordsAux [e] es := by
              simp [wordsAux, he]
            rw [heq]
            exact wordsAux_ne_nil es [e] (by simp)
          rcases List.exists_cons_of_ne_nil hWne with ⟨W0, Wr, hW⟩
          rw [hW]
          simp [joinWords]
termination_by l => l.length
decreasing_by
  · simp only [List.length_cons]
    exact Nat.lt_succ_of_le (dropWhile_length_le isWs t)
  · have h1 : (e :: es).length ≤ ds.length := by
      rw [← hds]
      exact dropWhile_length_le isWs ds
    have h2 : (d :: ds).length ≤ (c :: t).length := by
      rw [← hr]
      exact dropWhile_length_le (fun ch => !isWs ch) (c :: t)
    simp only [List.length_cons] at h1 h2 ⊢
    omega

/-- Every word produced by the scanner is nonempty and whitespace-free. -/
theorem wordsAux_sound : ∀ (l acc : List Char), (∀ c ∈ acc, isWs c = false) →
    ∀ w ∈ wordsAux acc l, w ≠ [] ∧ ∀ c ∈ w, isWs c = false
  | [], acc, hacc => by
    by_cases h : acc.isEmpty
    · simp [wordsAux, h]
    · simp only [wordsAux, h, Bool.false_eq_true, if_false]
      intro w hw
      rcases List.mem_singleton.mp hw with rfl
      refine ⟨?_, fun c hc => hacc c (List.mem_reverse.mp hc)⟩
      simp only [List.isEmpty_iff] at h
      simpa using h
  | c :: t, acc, hacc => by
    by_cases hc : isWs c
    · by_cases h : acc.isEmpty
      · simp only [wordsAux, hc, if_true, h]
        exact wordsAux_sound t [] (by simp)
      · simp only [wordsAux, hc, if_true, h, Bool.false_eq_true, if_false]
        intro w hw
        rcases List.mem_cons.mp hw with rfl | hw'
        · refine ⟨?_, fun x hx => hacc x (List.mem_reverse.mp hx)⟩
          simp only [List.isEmpty_iff] at h
          simpa using h
        · exact wordsAux_sound t [] (by simp) w hw'
    · simp only [wordsAux, hc, Bool.false_eq_true, if_false]
      exact wordsAux_sound t (c :: acc)
        (fun x hx => by
          rcases List.mem_cons.mp hx with rfl | hx'
          · simpa using hc
          · exact hacc x hx')

/-- Scanning the words of a joined word list recovers the list. -/
theorem words_joinWords : ∀ W : List (List Char),
    (∀ w ∈ W, w ≠ [] ∧ ∀ c ∈ w, isWs c = false) →
    wordsAux [] (joinWords W) = W
  | [], _ => rfl
  | [w], hW => by
    rcases hW w (List.mem_singleton.mpr rfl) with ⟨hne, hw⟩
    show wordsAux [] (joinWords [w]) = [w]
    have : joinWords [w] = w ++ [] := by simp [joinWords]
    rw [this, wordsAux_nonws_front w hw [] []]
    simp only [wordsAux, List.append_nil]
    rcases List.exists_cons_of_ne_nil hne with ⟨b, L, hb⟩
    rw [hb]
    simp
  | w :: w2 :: Wr, hW => by
    rcases hW w (List.mem_cons_self _ _) with ⟨hne, hw⟩
    show wordsAux [] (joinWords (w :: w2 :: Wr)) = w :: w2 :: Wr
    have hjoin : joinWords (w :: w2 :: Wr) = w ++ ' ' :: joinWords (w2 :: Wr) := by
      simp [joinWords]
    rw [hjoin, wordsAux_nonws_front w hw [] _, List.append_nil]
    have hrevne : w.reverse.isEmpty = false := by
      rcases List.exists_cons_of_ne_nil hne with ⟨b, L, hb⟩
      rw [hb]
      simp
    have hstep : wordsAux w.reverse (' ' :: joinWords (w2 :: Wr))
        = w :: wordsAux [] (joinWords (w2 :: Wr)) := by
      simp [wordsAux, hrevne, show isWs ' ' = true from rfl]
    rw [hstep,
      words_joinWords (w2 :: Wr) (fun x hx => hW x (List.mem_cons_of_mem _ hx))]

/-- C8: the text normalizer collapses every whitespace run to a single space
and strips the ends — it equals the words-joined-by-single-spaces normal form
and is therefore idempotent. -/
theorem clean_text_spec (t : String) :
    _clean_text t = normSpec t ∧ _clean_text (_clean_text t) = _clean_text t := by
  have hgen : ∀ s : String, _clean_text s = normSpec s := fun s =>
    congrArg String.mk (clean_core s.data)
  refine ⟨hgen t, ?_⟩
  rw [hgen t, hgen (normSpec t)]
  show String.mk (joinWords (wordsAux [] (joinWords (wordsAux [] t.data)))) = normSpec t
  rw [words_joinWords (wordsAux [] t.data)
    (fun w hw => wordsAux_sound t.data [] (by simp) w hw)]
  rfl

end ResumeScreen
